import Mathlib

/-!
The oscillator houscil~, a seventh-chord wavetable tone generator.

Shallow embedding of `houscil~.c`.  Floating point values are modelled by an
arbitrary linearly ordered field `K` with a floor function (exact arithmetic);
the C library functions `sinf` and `atanf` are parameters of the constructor, so
that the same definitions run over `ℚ` and are reasoned about over `ℝ`.
Operations whose C behaviour is undefined (a float to int conversion out of
range, signed overflow, a table read outside the allocation) return `none`.
-/

set_option linter.unusedSectionVars false

namespace Houscil

/-- The table size, `#define WAVETABLESIZE 1024`. -/
def WAVETABLESIZE : Nat := 1024

/-- The object `struct _houscil` (the Pd header `x_obj` carries no data used here). -/
structure t_houscil (K : Type) where
  x_f : K
  wavetable : List K
  phase : K
  samplerate : K
  harm_amt : K

section Defs

variable {K : Type} [LinearOrderedField K]

/-- The message handler `houscil_float`: the right inlet value is limited before it is stored. -/
def houscil_float (x : t_houscil K) (f : K) : t_houscil K :=
  if f > 100 then { x with harm_amt := 100 }
  else if f < 1 then { x with harm_amt := 1 }
  else { x with harm_amt := f }

/-- Smallest value of a C `int` (32 bits). -/
def INT_MIN : Int := -2147483648

/-- Largest value of a C `int` (32 bits). -/
def INT_MAX : Int := 2147483647

/-- Conversion of a floating value to `int`: the fractional part is discarded
(truncation toward zero); the behaviour is undefined when the integral part does
not fit an `int`. -/
def float_to_int [FloorRing K] (v : K) : Option Int :=
  let t : Int := if 0 ≤ v then Int.floor v else Int.ceil v
  if INT_MIN ≤ t ∧ t ≤ INT_MAX then some t else none

/-- Signed addition `a + b` on `int`; overflow is undefined. -/
def int_add (a b : Int) : Option Int :=
  if INT_MIN ≤ a + b ∧ a + b ≤ INT_MAX then some (a + b) else none

/-- The read `x->wavetable[k]` with an `int` subscript: defined only inside the allocation. -/
def table_read (w : List K) (k : Int) : Option K :=
  if 0 ≤ k then w[k.toNat]? else none

/-- The routine `lin_interpolate`; `%` on `int` is the truncating remainder `Int.tmod`. -/
def lin_interpolate [FloorRing K] (x : t_houscil K) (harm : K) : Option K := do
  let x_1 ← float_to_int (x.phase * (WAVETABLESIZE : K) * harm)
  let y_1 ← table_read x.wavetable (Int.tmod x_1 (WAVETABLESIZE : Int))
  let x_2 ← int_add x_1 1
  let y_2 ← table_read x.wavetable (Int.tmod x_2 (WAVETABLESIZE : Int))
  pure ((y_2 - y_1) * ((x.phase * (WAVETABLESIZE : K) * harm) - (x_1 : K)) + y_1)

/-- Signed subtraction `a - b` on `int`; overflow is undefined. -/
def int_sub (a b : Int) : Option Int :=
  if INT_MIN ≤ a - b ∧ a - b ≤ INT_MAX then some (a - b) else none

/-- The cubic routine `quad_interpolate` (never called by `houscil_perform`); the C
local `in` is written `in0`, and `%` on `int` is the truncating remainder `Int.tmod`. -/
def quad_interpolate [FloorRing K] (x : t_houscil K) : Option K := do
  let truncphase ← float_to_int (x.phase * (WAVETABLESIZE : K))
  let fr : K := (x.phase * (WAVETABLESIZE : K)) - (truncphase : K)
  let im1 ← int_sub truncphase 1
  let inm1 ← table_read x.wavetable (Int.tmod im1 (WAVETABLESIZE : Int))
  let i0 ← int_add truncphase 0
  let in0 ← table_read x.wavetable (Int.tmod i0 (WAVETABLESIZE : Int))
  let ip1 ← int_add truncphase 1
  let inp1 ← table_read x.wavetable (Int.tmod ip1 (WAVETABLESIZE : Int))
  let ip2 ← int_add truncphase 2
  let inp2 ← table_read x.wavetable (Int.tmod ip2 (WAVETABLESIZE : Int))
  pure (in0 + 1 / 2 * fr * (inp1 - inm1 +
    fr * (4 * inp1 + 2 * inm1 - 5 * in0 - inp2 +
    fr * (3 * (in0 - inp1) - inm1 + inp2))))

/-- First wrap loop of `houscil_perform`: `while (phase >= 60.0f) phase -= 60.0f;`. -/
def wrap_down [FloorRing K] (p : K) : K :=
  if 60 ≤ p then wrap_down (p - 60) else p
termination_by (Int.floor (p / 60)).toNat
decreasing_by
  have h1 : Int.floor ((p - 60) / 60) = Int.floor (p / 60) - 1 := by
    rw [sub_div, div_self (by norm_num : (60 : K) ≠ 0), Int.floor_sub_one]
  have h2 : 1 ≤ Int.floor (p / 60) := by
    rw [Int.le_floor]
    rw [le_div_iff₀ (by norm_num : (0 : K) < 60)]
    simpa using ‹60 ≤ p›
  rw [h1]
  omega

/-- Second wrap loop of `houscil_perform`: `while (phase < 0.0f) phase += 60.0f;`. -/
def wrap_up [FloorRing K] (p : K) : K :=
  if p < 0 then wrap_up (p + 60) else p
termination_by (-Int.floor (p / 60)).toNat
decreasing_by
  have h1 : Int.floor ((p + 60) / 60) = Int.floor (p / 60) + 1 := by
    rw [add_div, div_self (by norm_num : (60 : K) ≠ 0), Int.floor_add_one]
  have h2 : Int.floor (p / 60) < 0 := by
    rw [Int.floor_lt]
    rw [div_lt_iff₀ (by norm_num : (0 : K) < 60)]
    simpa using ‹p < 0›
  rw [h1]
  omega

/-- Number of turns of the first wrap loop started at `p`. -/
def wrap_down_turns [FloorRing K] (p : K) : Nat :=
  if 60 ≤ p then wrap_down_turns (p - 60) + 1 else 0
termination_by (Int.floor (p / 60)).toNat
decreasing_by
  have h1 : Int.floor ((p - 60) / 60) = Int.floor (p / 60) - 1 := by
    rw [sub_div, div_self (by norm_num : (60 : K) ≠ 0), Int.floor_sub_one]
  have h2 : 1 ≤ Int.floor (p / 60) := by
    rw [Int.le_floor]
    rw [le_div_iff₀ (by norm_num : (0 : K) < 60)]
    simpa using ‹60 ≤ p›
  rw [h1]
  omega

/-- Number of turns of the second wrap loop started at `p`. -/
def wrap_up_turns [FloorRing K] (p : K) : Nat :=
  if p < 0 then wrap_up_turns (p + 60) + 1 else 0
termination_by (-Int.floor (p / 60)).toNat
decreasing_by
  have h1 : Int.floor ((p + 60) / 60) = Int.floor (p / 60) + 1 := by
    rw [add_div, div_self (by norm_num : (60 : K) ≠ 0), Int.floor_add_one]
  have h2 : Int.floor (p / 60) < 0 := by
    rw [Int.floor_lt]
    rw [div_lt_iff₀ (by norm_num : (0 : K) < 60)]
    simpa using ‹p < 0›
  rw [h1]
  omega

/-- Lines 116 to 124 of `houscil_perform`: the table index of the current phase
(computed, never used) and the sum of the four interpolated tones.  Division in a
field has `a / 0 = 0`; at `harm_amt = 0` the C value `p / (4.0f / 0)` is `p / inf = 0`
for finite `p`, the same number. -/
def houscil_mix [FloorRing K] (x : t_houscil K) : Option K := do
  let findex : K := (WAVETABLESIZE : K) * x.phase
  let _iindex ← float_to_int findex
  let out : K := 0
  let p1 ← lin_interpolate x 1
  let out := out + p1 / 2
  let p2 ← lin_interpolate x (5 / 4)
  let out := out + p2 / (4 / (x.harm_amt / 100))
  let p3 ← lin_interpolate x (3 / 2)
  let out := out + p3 / (6 / (x.harm_amt / 100))
  let p4 ← lin_interpolate x (15 / 8)
  let out := out + p4 / (8 / (x.harm_amt / 100))
  pure out

/-- Lines 107 to 114 of `houscil_perform`: the phase increment of one sample is
added and the phase is brought back by the two loops. -/
def phase_step [FloorRing K] (x : t_houscil K) (fr : K) : t_houscil K :=
  let phaseincrement : K := fr / x.samplerate
  let x := { x with phase := x.phase + phaseincrement }
  let x := { x with phase := wrap_down x.phase }
  { x with phase := wrap_up x.phase }

/-- One turn of the `while (n--)` loop of `houscil_perform`: the new object and the
sample stored at `out[sample]`. -/
def perform_sample [FloorRing K] (x : t_houscil K) (fr : K) : Option (t_houscil K × K) := do
  let x := phase_step x fr
  let o ← houscil_mix x
  pure (x, o)

/-- The routine `houscil_perform` on a frequency vector of `n = freq.length` points:
the object after the call and the `n` samples written to the output vector, in order. -/
def houscil_perform [FloorRing K] : t_houscil K → List K → Option (t_houscil K × List K)
  | x, [] => some (x, [])
  | x, fr :: rest => do
    let (x1, o) ← perform_sample x fr
    let (x2, os) ← houscil_perform x1 rest
    pure (x2, o :: os)

/-- The method `houscil_dsp`: the sample rate of the signal is stored when DSP starts. -/
def houscil_dsp (x : t_houscil K) (s_sr : K) : t_houscil K :=
  { x with samplerate := s_sr }

/-- The fill loop of `houscil_new`: `for (i = 0; i < WAVETABLESIZE; i++)
wavetable[i] = sinf(twopi * (float)i / size)`, started at index `i`. -/
def fill_loop (sinf : K → K) (twopi size : K) (i : Nat) (w : List K) : List K :=
  if i < WAVETABLESIZE then
    fill_loop sinf twopi size (i + 1) (w.set i (sinf (twopi * (i : K) / size)))
  else w
termination_by WAVETABLESIZE - i

/-- The constructor `houscil_new`.  The object comes zeroed from Pd (`pd_new`), so
`samplerate` is 0 until `houscil_dsp` runs; the table is a fresh block of
`WAVETABLESIZE` floats, every one of which the loop overwrites. -/
def houscil_new (sinf atanf : K → K) (f : K) : t_houscil K :=
  let twopi : K := 8 * atanf 1
  let size : K := (WAVETABLESIZE : K)
  { x_f := 0
    phase := 0
    samplerate := 0
    harm_amt := f
    wavetable := fill_loop sinf twopi size 0 (List.replicate WAVETABLESIZE 0) }

/-- The value the wraparound of the phase denotes: the representative of `v`
modulo 60 that lies in `[0, 60)`. -/
def wrap60 [FloorRing K] (v : K) : K := v - 60 * (Int.floor (v / 60) : K)

/-- The phase sequence of a call of `houscil_perform` as the specification words it:
`phase_at x freq 0` is the phase stored on entry and
`phase_at x freq (i + 1) = wrap60 (phase_at x freq i + freq[i] / samplerate)` is the
phase at which sample `i` is mixed. -/
def phase_at [FloorRing K] (x : t_houscil K) (freq : List K) : Nat → K
  | 0 => x.phase
  | i + 1 => wrap60 (phase_at x freq i + freq.getD i 0 / x.samplerate)

end Defs

/-! Supporting lemmas -/

section Proofs

variable {K : Type} [LinearOrderedField K] [FloorRing K]

theorem wrap60_nonneg (v : K) : 0 ≤ wrap60 v := by
  have h := Int.floor_le (v / 60)
  rw [le_div_iff₀ (by norm_num : (0 : K) < 60)] at h
  unfold wrap60
  linarith

theorem wrap60_lt (v : K) : wrap60 v < 60 := by
  have h := Int.lt_floor_add_one (v / 60)
  rw [div_lt_iff₀ (by norm_num : (0 : K) < 60)] at h
  unfold wrap60
  linarith

theorem floor_div60_of_mem {q : K} (h0 : 0 ≤ q) (h1 : q < 60) : Int.floor (q / 60) = 0 := by
  rw [Int.floor_eq_iff]
  constructor
  · simpa using div_nonneg h0 (by norm_num : (0 : K) ≤ 60)
  · rw [div_lt_iff₀ (by norm_num : (0 : K) < 60)]
    simpa using h1

theorem wrap60_of_mem {q : K} (h0 : 0 ≤ q) (h1 : q < 60) : wrap60 q = q := by
  unfold wrap60
  rw [floor_div60_of_mem h0 h1]
  simp

theorem wrap60_add_int (v : K) (k : Int) : wrap60 (v + 60 * (k : K)) = wrap60 v := by
  unfold wrap60
  have h : (v + 60 * (k : K)) / 60 = v / 60 + (k : K) := by
    field_simp
    ring
  rw [h, Int.floor_add_int]
  push_cast
  ring

theorem wrap60_wrap60_add (a d : K) : wrap60 (wrap60 a + d) = wrap60 (a + d) := by
  have h : wrap60 a + d = (a + d) + 60 * ((-Int.floor (a / 60) : Int) : K) := by
    unfold wrap60
    push_cast
    ring
  rw [h, wrap60_add_int]

theorem wrap60_unique (v q : K) (h0 : 0 ≤ q) (h1 : q < 60) (k : Int)
    (hk : q = v + 60 * (k : K)) : q = wrap60 v := by
  rw [← wrap60_of_mem h0 h1, hk, wrap60_add_int]

theorem wrap_down_of_lt {p : K} (h : p < 60) : wrap_down p = p := by
  rw [wrap_down]
  simp [not_le.mpr h]

theorem wrap_down_step {p : K} (h : 60 ≤ p) : wrap_down p = wrap_down (p - 60) := by
  rw [wrap_down]
  simp [h]

theorem wrap_up_of_nonneg {p : K} (h : 0 ≤ p) : wrap_up p = p := by
  rw [wrap_up]
  simp [not_lt.mpr h]

theorem wrap_up_step {p : K} (h : p < 0) : wrap_up p = wrap_up (p + 60) := by
  rw [wrap_up]
  simp [h]

theorem wrap_down_nat (n : Nat) : ∀ p : K, Int.floor (p / 60) = (n : Int) →
    wrap_down p = wrap60 p := by
  induction n with
  | zero =>
    intro p hp
    have h1 := Int.lt_floor_add_one (p / 60)
    rw [hp, div_lt_iff₀ (by norm_num : (0 : K) < 60)] at h1
    have h60 : p < 60 := by simpa using h1
    rw [wrap_down_of_lt h60]
    unfold wrap60
    rw [hp]
    simp
  | succ n ih =>
    intro p hp
    have h1 := Int.floor_le (p / 60)
    rw [hp, le_div_iff₀ (by norm_num : (0 : K) < 60)] at h1
    have h60 : 60 ≤ p := by
      push_cast at h1
      have : (0 : K) ≤ (n : K) := Nat.cast_nonneg n
      linarith
    have hf : Int.floor ((p - 60) / 60) = (n : Int) := by
      rw [sub_div, div_self (by norm_num : (60 : K) ≠ 0), Int.floor_sub_one, hp]
      push_cast
      ring
    rw [wrap_down_step h60, ih _ hf]
    have := wrap60_add_int p (-1)
    push_cast at this
    rw [← this]
    congr 1
    ring

theorem wrap_up_nat (n : Nat) : ∀ p : K, Int.floor (p / 60) = -(n : Int) →
    wrap_up p = wrap60 p := by
  induction n with
  | zero =>
    intro p hp
    have h1 := Int.floor_le (p / 60)
    rw [hp, le_div_iff₀ (by norm_num : (0 : K) < 60)] at h1
    have h0 : 0 ≤ p := by simpa using h1
    rw [wrap_up_of_nonneg h0]
    unfold wrap60
    rw [hp]
    simp
  | succ n ih =>
    intro p hp
    have h1 := Int.lt_floor_add_one (p / 60)
    rw [hp, div_lt_iff₀ (by norm_num : (0 : K) < 60)] at h1
    have h0 : p < 0 := by
      push_cast at h1
      have : (0 : K) ≤ (n : K) := Nat.cast_nonneg n
      linarith
    have hf : Int.floor ((p + 60) / 60) = -(n : Int) := by
      rw [add_div, div_self (by norm_num : (60 : K) ≠ 0), Int.floor_add_one, hp]
      push_cast
      ring
    rw [wrap_up_step h0, ih _ hf]
    have := wrap60_add_int p 1
    push_cast at this
    rw [← this]
    congr 1
    ring

/-- The two wrap loops in sequence compute the remainder modulo 60. -/
theorem wrap_up_wrap_down (v : K) : wrap_up (wrap_down v) = wrap60 v := by
  rcases le_or_lt 0 (Int.floor (v / 60)) with h | h
  · obtain ⟨n, hn⟩ := Int.eq_ofNat_of_zero_le h
    rw [wrap_down_nat n v hn, wrap_up_of_nonneg (wrap60_nonneg v)]
  · have hv : v < 60 := by
      have h1 := Int.lt_floor_add_one (v / 60)
      rw [div_lt_iff₀ (by norm_num : (0 : K) < 60)] at h1
      have h2 : ((Int.floor (v / 60) : Int) : K) + 1 ≤ 0 := by
        exact_mod_cast h
      nlinarith
    rw [wrap_down_of_lt hv]
    obtain ⟨n, hn⟩ := Int.exists_eq_neg_ofNat (le_of_lt h)
    exact wrap_up_nat n v hn


theorem float_to_int_of_nonneg {v : K} (h0 : 0 ≤ v) (h1 : v < 2147483647) :
    float_to_int v = some (Int.floor v) := by
  have hlo : (0 : Int) ≤ Int.floor v := Int.floor_nonneg.mpr h0
  have hhi : Int.floor v < 2147483647 := by
    rw [Int.floor_lt]
    exact_mod_cast h1
  unfold float_to_int
  simp only [h0, if_true, INT_MIN, INT_MAX]
  rw [if_pos]
  constructor <;> omega

theorem table_read_tmod (w : List K) (hlen : w.length = WAVETABLESIZE) (k : Int) (hk : 0 ≤ k) :
    ∃ y, w[(k % 1024).toNat]? = some y ∧
      table_read w (Int.tmod k (WAVETABLESIZE : Int)) = some y := by
  have hm : Int.tmod k (WAVETABLESIZE : Int) = k % 1024 := by
    rw [Int.tmod_eq_emod hk (by decide)]
    rfl
  have h0 : 0 ≤ k % 1024 := Int.emod_nonneg k (by decide)
  have h1 : k % 1024 < 1024 := Int.emod_lt_of_pos k (by decide)
  have hlt : (k % 1024).toNat < w.length := by
    rw [hlen]
    unfold WAVETABLESIZE
    omega
  refine ⟨w[(k % 1024).toNat], ?_, ?_⟩
  · exact List.getElem?_eq_getElem hlt
  · unfold table_read
    rw [hm, if_pos h0]
    exact List.getElem?_eq_getElem hlt

theorem lin_interpolate_some (x : t_houscil K) (harm : K)
    (hlen : x.wavetable.length = WAVETABLESIZE)
    (h0 : 0 ≤ x.phase * (WAVETABLESIZE : K) * harm)
    (h1 : x.phase * (WAVETABLESIZE : K) * harm < 2147483646) :
    ∃ y1 y2,
      x.wavetable[(Int.floor (x.phase * (WAVETABLESIZE : K) * harm) % 1024).toNat]? = some y1 ∧
      x.wavetable[((Int.floor (x.phase * (WAVETABLESIZE : K) * harm) + 1) % 1024).toNat]?
        = some y2 ∧
      lin_interpolate x harm = some ((y2 - y1) *
        (x.phase * (WAVETABLESIZE : K) * harm
          - (Int.floor (x.phase * (WAVETABLESIZE : K) * harm) : K)) + y1) := by
  have hlo : (0 : Int) ≤ Int.floor (x.phase * (WAVETABLESIZE : K) * harm) :=
    Int.floor_nonneg.mpr h0
  have hhi : Int.floor (x.phase * (WAVETABLESIZE : K) * harm) < 2147483646 := by
    rw [Int.floor_lt]
    exact_mod_cast h1
  obtain ⟨y1, hy1, hr1⟩ := table_read_tmod x.wavetable hlen _ hlo
  obtain ⟨y2, hy2, hr2⟩ := table_read_tmod x.wavetable hlen
    (Int.floor (x.phase * (WAVETABLESIZE : K) * harm) + 1) (by omega)
  have hadd : int_add (Int.floor (x.phase * (WAVETABLESIZE : K) * harm)) 1
      = some (Int.floor (x.phase * (WAVETABLESIZE : K) * harm) + 1) := by
    unfold int_add
    rw [if_pos]
    unfold INT_MIN INT_MAX
    constructor <;> omega
  refine ⟨y1, y2, hy1, hy2, ?_⟩
  unfold lin_interpolate
  rw [float_to_int_of_nonneg h0 (by linarith)]
  simp only [Option.bind_eq_bind, Option.some_bind, hr1, hadd, hr2]
  rfl


theorem scaled_index_bounds {p r : K} (hp0 : 0 ≤ p) (hp1 : p < 60) (hr0 : 0 ≤ r) (hr2 : r ≤ 2) :
    0 ≤ p * (WAVETABLESIZE : K) * r ∧ p * (WAVETABLESIZE : K) * r < 2147483646 := by
  have hw : ((WAVETABLESIZE : Nat) : K) = 1024 := by
    unfold WAVETABLESIZE
    norm_num
  rw [hw]
  constructor
  · positivity
  · have h1 : p * 1024 * r ≤ p * 1024 * 2 :=
      mul_le_mul_of_nonneg_left hr2 (by positivity)
    linarith

theorem lin_interpolate_some_of_phase (x : t_houscil K) (r : K)
    (hlen : x.wavetable.length = WAVETABLESIZE)
    (hp0 : 0 ≤ x.phase) (hp1 : x.phase < 60) (hr0 : 0 ≤ r) (hr2 : r ≤ 2) :
    ∃ v, lin_interpolate x r = some v := by
  obtain ⟨h0, h1⟩ := scaled_index_bounds hp0 hp1 hr0 hr2
  obtain ⟨y1, y2, -, -, h⟩ := lin_interpolate_some x r hlen h0 h1
  exact ⟨_, h⟩

theorem houscil_mix_some (x : t_houscil K) (hlen : x.wavetable.length = WAVETABLESIZE)
    (hp0 : 0 ≤ x.phase) (hp1 : x.phase < 60) :
    ∃ p1 p2 p3 p4, lin_interpolate x 1 = some p1 ∧ lin_interpolate x (5 / 4) = some p2 ∧
      lin_interpolate x (3 / 2) = some p3 ∧ lin_interpolate x (15 / 8) = some p4 ∧
      houscil_mix x = some (0 + p1 / 2 + p2 / (4 / (x.harm_amt / 100))
        + p3 / (6 / (x.harm_amt / 100)) + p4 / (8 / (x.harm_amt / 100))) := by
  obtain ⟨p1, h1⟩ := lin_interpolate_some_of_phase x 1 hlen hp0 hp1 (by norm_num) (by norm_num)
  obtain ⟨p2, h2⟩ := lin_interpolate_some_of_phase x (5 / 4) hlen hp0 hp1
    (by norm_num) (by norm_num)
  obtain ⟨p3, h3⟩ := lin_interpolate_some_of_phase x (3 / 2) hlen hp0 hp1
    (by norm_num) (by norm_num)
  obtain ⟨p4, h4⟩ := lin_interpolate_some_of_phase x (15 / 8) hlen hp0 hp1
    (by norm_num) (by norm_num)
  have hfi : float_to_int ((WAVETABLESIZE : K) * x.phase)
      = some (Int.floor ((WAVETABLESIZE : K) * x.phase)) := by
    obtain ⟨h0, hlt⟩ := scaled_index_bounds hp0 hp1 (by norm_num : (0 : K) ≤ 1)
      (by norm_num : (1 : K) ≤ 2)
    apply float_to_int_of_nonneg
    · nlinarith
    · nlinarith
  refine ⟨p1, p2, p3, p4, h1, h2, h3, h4, ?_⟩
  unfold houscil_mix
  simp only [hfi, h1, h2, h3, h4, Option.bind_eq_bind, Option.some_bind]
  rfl

theorem phase_step_phase (x : t_houscil K) (fr : K) :
    (phase_step x fr).phase = wrap60 (x.phase + fr / x.samplerate) := by
  unfold phase_step
  exact wrap_up_wrap_down _

theorem phase_step_eq (x : t_houscil K) (fr : K) :
    phase_step x fr = { x with phase := wrap60 (x.phase + fr / x.samplerate) } := by
  have h := phase_step_phase x fr
  unfold phase_step at h ⊢
  simp only at h ⊢
  rw [h]

theorem perform_sample_eq (x : t_houscil K) (fr : K)
    (hlen : x.wavetable.length = WAVETABLESIZE) :
    ∃ o, houscil_mix { x with phase := wrap60 (x.phase + fr / x.samplerate) } = some o ∧
      perform_sample x fr
        = some ({ x with phase := wrap60 (x.phase + fr / x.samplerate) }, o) := by
  obtain ⟨p1, p2, p3, p4, -, -, -, -, h⟩ :=
    houscil_mix_some { x with phase := wrap60 (x.phase + fr / x.samplerate) } hlen
      (wrap60_nonneg _) (wrap60_lt _)
  refine ⟨_, h, ?_⟩
  unfold perform_sample
  simp only [phase_step_eq, h, Option.bind_eq_bind, Option.some_bind]
  rfl


theorem phase_at_cons (x : t_houscil K) (fr : K) (rest : List K) (i : Nat) :
    phase_at x (fr :: rest) (i + 1)
      = phase_at { x with phase := wrap60 (x.phase + fr / x.samplerate) } rest i := by
  induction i with
  | zero => simp [phase_at]
  | succ i ih =>
    rw [phase_at, ih]
    simp [phase_at]

theorem phase_at_succ_mem (x : t_houscil K) (freq : List K) (i : Nat) :
    0 ≤ phase_at x freq (i + 1) ∧ phase_at x freq (i + 1) < 60 :=
  ⟨wrap60_nonneg _, wrap60_lt _⟩

theorem phase_at_mem (x : t_houscil K) (freq : List K) (hp0 : 0 ≤ x.phase) (hp1 : x.phase < 60)
    (i : Nat) : 0 ≤ phase_at x freq i ∧ phase_at x freq i < 60 := by
  cases i with
  | zero => exact ⟨hp0, hp1⟩
  | succ i => exact phase_at_succ_mem x freq i

theorem houscil_perform_spec (freq : List K) : ∀ x : t_houscil K,
    x.wavetable.length = WAVETABLESIZE →
    ∃ out, houscil_perform x freq
        = some ({ x with phase := phase_at x freq freq.length }, out) ∧
      out.length = freq.length ∧
      ∀ i, i < freq.length →
        houscil_mix { x with phase := phase_at x freq (i + 1) } = out[i]? := by
  induction freq with
  | nil =>
    intro x _
    exact ⟨[], rfl, rfl, fun i hi => absurd hi (Nat.not_lt_zero i)⟩
  | cons fr rest ih =>
    intro x hlen
    obtain ⟨o, hmix, hs⟩ := perform_sample_eq x fr hlen
    obtain ⟨os, hrun, hl, hout⟩ :=
      ih { x with phase := wrap60 (x.phase + fr / x.samplerate) } hlen
    refine ⟨o :: os, ?_, by simp [hl], ?_⟩
    · rw [houscil_perform]
      simp only [hs, hrun, Option.bind_eq_bind, Option.some_bind]
      simp [phase_at_cons]
    · intro i hi
      cases i with
      | zero => simpa [phase_at] using hmix
      | succ i =>
        have := hout i (by simpa using hi)
        rw [phase_at_cons]
        simpa using this

theorem phase_at_replicate (x : t_houscil K) (hp0 : 0 ≤ x.phase) (hp1 : x.phase < 60)
    (n : Nat) (f : K) : ∀ k, k ≤ n →
      phase_at x (List.replicate n f) k = wrap60 (x.phase + (k : K) * (f / x.samplerate)) := by
  intro k
  induction k with
  | zero =>
    intro _
    simp [phase_at, wrap60_of_mem hp0 hp1]
  | succ k ih =>
    intro hk
    have hget : (List.replicate n f).getD k 0 = f := by
      simp [List.getD, List.getElem?_replicate, Nat.lt_of_succ_le hk]
    rw [phase_at, ih (Nat.le_of_succ_le hk), hget, wrap60_wrap60_add]
    congr 1
    push_cast
    ring


theorem fill_loop_spec (sinf : K → K) (twopi size : K) (m : Nat) :
    ∀ (i : Nat) (w : List K), WAVETABLESIZE - i = m → w.length = WAVETABLESIZE →
      (fill_loop sinf twopi size i w).length = WAVETABLESIZE ∧
      ∀ j, j < WAVETABLESIZE → (fill_loop sinf twopi size i w)[j]?
        = if i ≤ j then some (sinf (twopi * (j : K) / size)) else w[j]? := by
  induction m with
  | zero =>
    intro i w hi hlen
    have hge : ¬ i < WAVETABLESIZE := by omega
    rw [fill_loop, if_neg hge]
    refine ⟨hlen, fun j hj => ?_⟩
    rw [if_neg (by omega)]
  | succ m ih =>
    intro i w hi hlen
    have hlt : i < WAVETABLESIZE := by omega
    rw [fill_loop, if_pos hlt]
    obtain ⟨h1, h2⟩ := ih (i + 1) (w.set i (sinf (twopi * (i : K) / size))) (by omega)
      (by simpa using hlen)
    refine ⟨h1, fun j hj => ?_⟩
    rw [h2 j hj]
    by_cases hij : i + 1 ≤ j
    · rw [if_pos hij, if_pos (by omega)]
    · rw [if_neg hij]
      by_cases hji : i ≤ j
      · have hje : i = j := by omega
        subst hje
        rw [if_pos hji]
        simp [List.getElem?_set, hlen, hlt]
      · rw [if_neg hji]
        have hne : i ≠ j := by omega
        simp [List.getElem?_set, hne]

theorem houscil_new_wavetable (sinf atanf : K → K) (f : K) :
    (houscil_new sinf atanf f).wavetable.length = WAVETABLESIZE ∧
    ∀ j, j < WAVETABLESIZE → (houscil_new sinf atanf f).wavetable[j]?
      = some (sinf (8 * atanf 1 * (j : K) / (WAVETABLESIZE : K))) := by
  obtain ⟨h1, h2⟩ := fill_loop_spec sinf (8 * atanf 1) (WAVETABLESIZE : K) WAVETABLESIZE 0
    (List.replicate WAVETABLESIZE 0) rfl (by simp)
  refine ⟨h1, fun j hj => ?_⟩
  have := h2 j hj
  simpa using this


theorem lin_interpolate_abs_le (x : t_houscil K) (r : K)
    (hlen : x.wavetable.length = WAVETABLESIZE)
    (hb : ∀ y ∈ x.wavetable, |y| ≤ 1)
    (hp0 : 0 ≤ x.phase) (hp1 : x.phase < 60) (hr0 : 0 ≤ r) (hr2 : r ≤ 2) :
    ∃ v, lin_interpolate x r = some v ∧ |v| ≤ 1 := by
  obtain ⟨h0, h1⟩ := scaled_index_bounds hp0 hp1 hr0 hr2
  obtain ⟨y1, y2, hy1, hy2, h⟩ := lin_interpolate_some x r hlen h0 h1
  refine ⟨_, h, ?_⟩
  have b1 := abs_le.mp (hb y1 (List.getElem?_mem hy1))
  have b2 := abs_le.mp (hb y2 (List.getElem?_mem hy2))
  have t0 : 0 ≤ x.phase * (WAVETABLESIZE : K) * r
      - (Int.floor (x.phase * (WAVETABLESIZE : K) * r) : K) :=
    sub_nonneg.mpr (Int.floor_le _)
  have t1 : x.phase * (WAVETABLESIZE : K) * r
      - (Int.floor (x.phase * (WAVETABLESIZE : K) * r) : K) ≤ 1 := by
    have := Int.lt_floor_add_one (x.phase * (WAVETABLESIZE : K) * r)
    linarith
  rw [abs_le]
  constructor <;> nlinarith

theorem mix_weight (p d h : K) (hd : d ≠ 0) :
    p / (d / (h / 100)) = (h / 100) * (p / d) := by
  field_simp
  ring

theorem houscil_mix_formula (x : t_houscil K) (hlen : x.wavetable.length = WAVETABLESIZE)
    (hp0 : 0 ≤ x.phase) (hp1 : x.phase < 60) :
    ∃ p1 p2 p3 p4, lin_interpolate x 1 = some p1 ∧ lin_interpolate x (5 / 4) = some p2 ∧
      lin_interpolate x (3 / 2) = some p3 ∧ lin_interpolate x (15 / 8) = some p4 ∧
      houscil_mix x = some (p1 / 2 + (x.harm_amt / 100) * (p2 / 4 + p3 / 6 + p4 / 8)) := by
  obtain ⟨p1, p2, p3, p4, h1, h2, h3, h4, h⟩ := houscil_mix_some x hlen hp0 hp1
  refine ⟨p1, p2, p3, p4, h1, h2, h3, h4, ?_⟩
  rw [h, mix_weight p2 4 _ (by norm_num), mix_weight p3 6 _ (by norm_num),
    mix_weight p4 8 _ (by norm_num)]
  congr 1
  ring

theorem houscil_mix_abs_le (x : t_houscil K) (hlen : x.wavetable.length = WAVETABLESIZE)
    (hb : ∀ y ∈ x.wavetable, |y| ≤ 1)
    (hp0 : 0 ≤ x.phase) (hp1 : x.phase < 60) (hh : 0 < x.harm_amt) :
    ∃ o, houscil_mix x = some o ∧ |o| ≤ 1 / 2 + 13 / 24 * (x.harm_amt / 100) := by
  obtain ⟨p1, p2, p3, p4, h1, h2, h3, h4, h⟩ :=
    houscil_mix_formula x hlen hp0 hp1
  obtain ⟨v1, e1, b1⟩ := lin_interpolate_abs_le x 1 hlen hb hp0 hp1 (by norm_num) (by norm_num)
  obtain ⟨v2, e2, b2⟩ := lin_interpolate_abs_le x (5 / 4) hlen hb hp0 hp1
    (by norm_num) (by norm_num)
  obtain ⟨v3, e3, b3⟩ := lin_interpolate_abs_le x (3 / 2) hlen hb hp0 hp1
    (by norm_num) (by norm_num)
  obtain ⟨v4, e4, b4⟩ := lin_interpolate_abs_le x (15 / 8) hlen hb hp0 hp1
    (by norm_num) (by norm_num)
  rw [h1] at e1
  rw [h2] at e2
  rw [h3] at e3
  rw [h4] at e4
  cases e1
  cases e2
  cases e3
  cases e4
  refine ⟨_, h, ?_⟩
  have c1 := abs_le.mp b1
  have c2 := abs_le.mp b2
  have c3 := abs_le.mp b3
  have c4 := abs_le.mp b4
  have hw : 0 < x.harm_amt / 100 := by positivity
  rw [abs_le]
  constructor <;> nlinarith

/-- Every entry of the table filled with the real sine has absolute value at most one. -/
theorem sine_table_abs_le (f : ℝ) :
    ∀ y ∈ (houscil_new Real.sin Real.arctan f).wavetable, |y| ≤ 1 := by
  intro y hy
  obtain ⟨hlen, hget⟩ := houscil_new_wavetable Real.sin Real.arctan f
  obtain ⟨j, hj⟩ := List.mem_iff_getElem?.mp hy
  by_cases hlt : j < WAVETABLESIZE
  · rw [hget j hlt] at hj
    cases hj
    exact Real.abs_sin_le_one _
  · rw [List.getElem?_eq_none (by omega)] at hj
    cases hj


theorem perform_sample_of_mix (x0 x : t_houscil K) (fr o : K) (hx : phase_step x0 fr = x)
    (ho : houscil_mix x = some o) : perform_sample x0 fr = some (x, o) := by
  unfold perform_sample
  simp only [hx, ho, Option.bind_eq_bind, Option.some_bind]
  rfl

theorem houscil_perform_single (x0 x : t_houscil K) (fr o : K)
    (h : perform_sample x0 fr = some (x, o)) : houscil_perform x0 [fr] = some (x, [o]) := by
  rw [houscil_perform]
  simp only [h, Option.bind_eq_bind, Option.some_bind, houscil_perform]
  rfl

theorem lin_interpolate_of_index (x : t_houscil K) (r : K) (k : Nat)
    (hlen : x.wavetable.length = WAVETABLESIZE) (hk : k < WAVETABLESIZE)
    (hs : x.phase * (WAVETABLESIZE : K) * r = (k : K)) :
    lin_interpolate x r = x.wavetable[k]? := by
  have hk2 : k < 1024 := hk
  have h0 : 0 ≤ x.phase * (WAVETABLESIZE : K) * r := by
    rw [hs]
    exact Nat.cast_nonneg k
  have h1 : x.phase * (WAVETABLESIZE : K) * r < 2147483646 := by
    rw [hs]
    have : (k : K) < 1024 := by exact_mod_cast hk2
    linarith
  obtain ⟨y1, y2, hy1, -, h⟩ := lin_interpolate_some x r hlen h0 h1
  have hf : Int.floor (x.phase * (WAVETABLESIZE : K) * r) = (k : Int) := by
    rw [hs]
    exact Int.floor_natCast k
  rw [hf] at hy1 h
  have hm : ((k : Int) % 1024).toNat = k := by omega
  rw [hm] at hy1
  rw [h, hy1, hs]
  simp

/-- C2: from the object built by `houscil_new` (phase 0), for every sample rate above
zero and every finite sequence of frequency values of any sign, `houscil_perform`
returns and the phase it leaves satisfies `0 ≤ phase < 60`. -/
theorem phase_in_range (sinf atanf : K → K) (f sr : K) (freq : List K) (_hsr : 0 < sr) :
    ∃ x1 out, houscil_perform (houscil_dsp (houscil_new sinf atanf f) sr) freq = some (x1, out) ∧
      0 ≤ x1.phase ∧ x1.phase < 60 := by
  have hlen : (houscil_dsp (houscil_new sinf atanf f) sr).wavetable.length = WAVETABLESIZE :=
    (houscil_new_wavetable sinf atanf f).1
  obtain ⟨out, hrun, -, -⟩ := houscil_perform_spec freq _ hlen
  refine ⟨_, out, hrun, ?_⟩
  exact phase_at_mem _ freq (le_refl (0 : K)) (by norm_num : (0 : K) < 60) freq.length

/-- Instance of C2 over the rationals, with frequencies of both signs and zero. -/
theorem phase_in_range_witness :
    (0 : ℚ) < 48000 ∧
    ∃ x1 out, houscil_perform (houscil_dsp (houscil_new (fun v => v) (fun v => v) (50 : ℚ)) 48000)
        [440, -100000000, 0, 96000000] = some (x1, out) ∧ 0 ≤ x1.phase ∧ x1.phase < 60 :=
  ⟨by norm_num, phase_in_range _ _ _ _ _ (by norm_num)⟩

/-- C3: for every `n`, every constant frequency `f` and every sample rate `sr > 0`,
`houscil_perform` on `n` samples all equal to `f`, from phase 0, leaves the phase equal
to the unique value of `[0, 60)` congruent to `n * f / sr` modulo 60; for `n = 480`,
`f = 440`, `sr = 48000` that value is 22/5 = 4.4. -/
theorem constant_frequency_phase (sinf atanf : K → K) (h f sr : K) (n : Nat) (_hsr : 0 < sr) :
    ∃ x1 out, houscil_perform (houscil_dsp (houscil_new sinf atanf h) sr) (List.replicate n f)
        = some (x1, out) ∧
      0 ≤ x1.phase ∧ x1.phase < 60 ∧
      (∃ k : Int, x1.phase = (n : K) * f / sr + 60 * (k : K)) ∧
      (∀ q : K, 0 ≤ q → q < 60 → (∃ k : Int, q = (n : K) * f / sr + 60 * (k : K)) →
        q = x1.phase) ∧
      (n = 480 → f = 440 → sr = 48000 → x1.phase = 22 / 5) := by
  have hlen : (houscil_dsp (houscil_new sinf atanf h) sr).wavetable.length = WAVETABLESIZE :=
    (houscil_new_wavetable sinf atanf h).1
  obtain ⟨out, hrun, -, -⟩ := houscil_perform_spec (List.replicate n f) _ hlen
  have hph : phase_at (houscil_dsp (houscil_new sinf atanf h) sr) (List.replicate n f)
      (List.replicate n f).length = wrap60 ((n : K) * f / sr) := by
    rw [List.length_replicate, phase_at_replicate _ (le_refl (0 : K))
      (by norm_num : (0 : K) < 60) n f n (le_refl n)]
    congr 1
    show (0 : K) + (n : K) * (f / sr) = (n : K) * f / sr
    ring
  have huniq : ∀ q : K, 0 ≤ q → q < 60 → (∃ k : Int, q = (n : K) * f / sr + 60 * (k : K)) →
      q = wrap60 ((n : K) * f / sr) := by
    intro q hq0 hq1 hk
    obtain ⟨k, hk⟩ := hk
    exact wrap60_unique _ q hq0 hq1 k hk
  refine ⟨_, out, hrun, ?_, ?_, ?_, ?_, ?_⟩
  · rw [hph]
    exact wrap60_nonneg _
  · rw [hph]
    exact wrap60_lt _
  · rw [hph]
    refine ⟨-Int.floor ((n : K) * f / sr / 60), ?_⟩
    unfold wrap60
    push_cast
    ring
  · intro q hq0 hq1 hk
    rw [hph]
    exact huniq q hq0 hq1 hk
  · intro hn hf hs
    rw [hph]
    symm
    apply huniq (22 / 5) (by norm_num) (by norm_num)
    refine ⟨0, ?_⟩
    rw [hn, hf, hs]
    norm_num

/-- Instance of C3 over the rationals: 480 samples at 440 Hz and 48 kHz leave phase 22/5. -/
theorem constant_frequency_phase_witness :
    (0 : ℚ) < 48000 ∧
    ∃ x1 out, houscil_perform (houscil_dsp (houscil_new (fun v => v) (fun v => v) (50 : ℚ)) 48000)
        (List.replicate 480 440) = some (x1, out) ∧ x1.phase = 22 / 5 :=
  ⟨by norm_num,
   match constant_frequency_phase (fun v => v) (fun v => v) (50 : ℚ) 440 48000 480
      (by norm_num) with
   | ⟨x1, out, hrun, _, _, _, _, hval⟩ => ⟨x1, out, hrun, hval rfl rfl rfl⟩⟩


/-- C6: with the sine table built by `houscil_new` and `harm_amt = h` in `[1, 100]`, at
every phase in `[0, 60)` the mixed sample has absolute value at most
`1/2 + (13/24) * (h/100)`, and so has every sample `houscil_perform` writes for any
frequency vector and sample rate above zero; with `h = 50` every sample lies in `[-1, 1]`. -/
theorem sine_output_bound (x : t_houscil ℝ) (f0 : ℝ)
    (htab : x.wavetable = (houscil_new Real.sin Real.arctan f0).wavetable)
    (hh1 : 1 ≤ x.harm_amt) (_hh2 : x.harm_amt ≤ 100) :
    (0 ≤ x.phase → x.phase < 60 →
      ∃ o, houscil_mix x = some o ∧ |o| ≤ 1 / 2 + 13 / 24 * (x.harm_amt / 100) ∧
        (x.harm_amt = 50 → -1 ≤ o ∧ o ≤ 1)) ∧
    (∀ freq : List ℝ, 0 < x.samplerate →
      ∃ x1 out, houscil_perform x freq = some (x1, out) ∧ out.length = freq.length ∧
        ∀ o ∈ out, |o| ≤ 1 / 2 + 13 / 24 * (x.harm_amt / 100) ∧
          (x.harm_amt = 50 → -1 ≤ o ∧ o ≤ 1)) := by
  have hlen : x.wavetable.length = WAVETABLESIZE := by
    rw [htab]
    exact (houscil_new_wavetable Real.sin Real.arctan f0).1
  have hb : ∀ y ∈ x.wavetable, |y| ≤ 1 := by
    rw [htab]
    exact sine_table_abs_le f0
  have hpos : 0 < x.harm_amt := by linarith
  have key : ∀ q : ℝ, 0 ≤ q → q < 60 →
      ∃ o, houscil_mix { x with phase := q } = some o ∧
        |o| ≤ 1 / 2 + 13 / 24 * (x.harm_amt / 100) ∧ (x.harm_amt = 50 → -1 ≤ o ∧ o ≤ 1) := by
    intro q hq0 hq1
    obtain ⟨o, ho, hbd⟩ := houscil_mix_abs_le { x with phase := q } hlen hb hq0 hq1 hpos
    refine ⟨o, ho, hbd, ?_⟩
    intro h50
    have hbd2 : |o| ≤ 1 / 2 + 13 / 24 * (x.harm_amt / 100) := hbd
    rw [h50] at hbd2
    have := abs_le.mp hbd2
    constructor <;> linarith [this.1, this.2]
  constructor
  · intro hp0 hp1
    exact key x.phase hp0 hp1
  · intro freq _
    obtain ⟨out, hrun, hl, hout⟩ := houscil_perform_spec freq x hlen
    refine ⟨_, out, hrun, hl, ?_⟩
    intro o ho
    obtain ⟨i, hi⟩ := List.mem_iff_getElem?.mp ho
    have hilt : i < freq.length := by
      rw [← hl]
      by_contra hge
      rw [List.getElem?_eq_none (by omega)] at hi
      cases hi
    obtain ⟨o2, ho2, hbd⟩ := key (phase_at x freq (i + 1)) (phase_at_succ_mem x freq i).1
      (phase_at_succ_mem x freq i).2
    rw [hout i hilt, hi] at ho2
    cases ho2
    exact hbd

/-- Instance of C6: the object built with amount 50 at 48 kHz, on a short vector. -/
theorem sine_output_bound_witness :
    ∃ x1 out, houscil_perform (houscil_dsp (houscil_new Real.sin Real.arctan 50) 48000)
        [440, 880, -1000000] = some (x1, out) ∧ out.length = 3 ∧
      ∀ o ∈ out, -1 ≤ o ∧ o ≤ 1 :=
  match (sine_output_bound (houscil_dsp (houscil_new Real.sin Real.arctan 50) 48000) 50 rfl
      (by show (1 : ℝ) ≤ 50; norm_num) (by show (50 : ℝ) ≤ 100; norm_num)).2
      [440, 880, -1000000] (by show (0 : ℝ) < 48000; norm_num) with
  | ⟨x1, out, hrun, hl, hb⟩ => ⟨x1, out, hrun, hl, fun o ho => (hb o ho).2 rfl⟩

theorem eight_arctan_one : 8 * Real.arctan 1 = 2 * Real.pi := by
  rw [Real.arctan_one]
  ring

/-- C10: `houscil_new` produces a table of exactly 1024 entries whose entry `i` is
`sin (2 * pi * i / 1024)` for every `i` below 1024 (real model, `sinf` and `atanf` read as
the real sine and arc tangent), and sets the phase to 0. -/
theorem houscil_new_sine_table (f : ℝ) :
    (houscil_new Real.sin Real.arctan f).wavetable.length = 1024 ∧
    (∀ i : Nat, i < 1024 → (houscil_new Real.sin Real.arctan f).wavetable[i]?
      = some (Real.sin (2 * Real.pi * (i : ℝ) / 1024))) ∧
    (houscil_new Real.sin Real.arctan f).phase = 0 := by
  obtain ⟨h1, h2⟩ := houscil_new_wavetable Real.sin Real.arctan f
  refine ⟨h1, ?_, rfl⟩
  intro i hi
  rw [h2 i hi, eight_arctan_one]
  simp [WAVETABLESIZE]

/-- Instance of C10: entry 256 of the table is the sine of a quarter turn. -/
theorem houscil_new_sine_table_witness :
    (houscil_new Real.sin Real.arctan 0).wavetable[256]?
      = some (Real.sin (2 * Real.pi * ((256 : Nat) : ℝ) / 1024)) :=
  (houscil_new_sine_table 0).2.1 256 (by norm_num)

theorem sine_entry_pos (k : Nat) (h0 : 0 < k) (h1 : k < 512) :
    0 < Real.sin (8 * Real.arctan 1 * (k : ℝ) / (WAVETABLESIZE : ℝ)) := by
  rw [eight_arctan_one]
  have hk0 : (0 : ℝ) < (k : ℝ) := by exact_mod_cast h0
  have hk1 : (k : ℝ) < 512 := by exact_mod_cast h1
  have hw : ((WAVETABLESIZE : Nat) : ℝ) = 1024 := by simp [WAVETABLESIZE]
  rw [hw]
  apply Real.sin_pos_of_pos_of_lt_pi
  · have := Real.pi_pos
    positivity
  · have := Real.pi_pos
    have h : 2 * Real.pi * (k : ℝ) / 1024 = Real.pi * ((k : ℝ) / 512) := by ring
    rw [h]
    have h2 : (k : ℝ) / 512 < 1 := by
      rw [div_lt_one (by norm_num)]
      exact hk1
    nlinarith


/-- C7, the code at the control value 0: `houscil_float` stores 1, not 0, and the sample
`houscil_perform` then writes at 12 kHz and 48 kHz (phase 1/4, where the three upper
tones read the table entries 320, 384 and 480, all positive) is strictly above the root
term `lin_interpolate x 1 / 2`: the upper tones are still present. -/
theorem houscil_float_zero_keeps_upper_tones :
    (houscil_float (houscil_dsp (houscil_new Real.sin Real.arctan 100) 48000) 0).harm_amt = 1 ∧
    ∃ x1 o p1,
      houscil_perform (houscil_float (houscil_dsp (houscil_new Real.sin Real.arctan 100) 48000) 0)
        [12000] = some (x1, [o]) ∧
      x1.phase = 1 / 4 ∧ lin_interpolate x1 1 = some p1 ∧ p1 / 2 < o := by
  have hx : houscil_float (houscil_dsp (houscil_new Real.sin Real.arctan 100) 48000) 0
      = { houscil_dsp (houscil_new Real.sin Real.arctan 100) 48000 with harm_amt := 1 } := by
    unfold houscil_float
    rw [if_neg (by norm_num), if_pos (by norm_num)]
  obtain ⟨hlen, hget⟩ := houscil_new_wavetable Real.sin Real.arctan 100
  have hstep : phase_step (houscil_float (houscil_dsp (houscil_new Real.sin Real.arctan 100)
      48000) 0) 12000
      = { houscil_dsp (houscil_new Real.sin Real.arctan 100) 48000 with
          harm_amt := 1, phase := 1 / 4 } := by
    rw [hx, phase_step_eq]
    have hw : wrap60 ((0 : ℝ) + 12000 / 48000) = 1 / 4 := by
      rw [wrap60_of_mem (by norm_num) (by norm_num)]
      norm_num
    show ({ houscil_dsp (houscil_new Real.sin Real.arctan 100) 48000 with
        harm_amt := 1, phase := wrap60 ((0 : ℝ) + 12000 / 48000) } : t_houscil ℝ) = _
    rw [hw]
  have hw : ((WAVETABLESIZE : Nat) : ℝ) = 1024 := by simp [WAVETABLESIZE]
  obtain ⟨p1, p2, p3, p4, e1, e2, e3, e4, hmix⟩ :=
    houscil_mix_formula ({ houscil_dsp (houscil_new Real.sin Real.arctan 100) 48000 with
      harm_amt := 1, phase := 1 / 4 } : t_houscil ℝ) hlen
      (by show (0 : ℝ) ≤ 1 / 4; norm_num) (by show (1 / 4 : ℝ) < 60; norm_num)
  have i2 := lin_interpolate_of_index ({ houscil_dsp (houscil_new Real.sin Real.arctan 100)
      48000 with harm_amt := 1, phase := 1 / 4 } : t_houscil ℝ) (5 / 4) 320 hlen
      (by decide) (by show (1 / 4 : ℝ) * _ * (5 / 4) = _; rw [hw]; norm_num)
  have i3 := lin_interpolate_of_index ({ houscil_dsp (houscil_new Real.sin Real.arctan 100)
      48000 with harm_amt := 1, phase := 1 / 4 } : t_houscil ℝ) (3 / 2) 384 hlen
      (by decide) (by show (1 / 4 : ℝ) * _ * (3 / 2) = _; rw [hw]; norm_num)
  have i4 := lin_interpolate_of_index ({ houscil_dsp (houscil_new Real.sin Real.arctan 100)
      48000 with harm_amt := 1, phase := 1 / 4 } : t_houscil ℝ) (15 / 8) 480 hlen
      (by decide) (by show (1 / 4 : ℝ) * _ * (15 / 8) = _; rw [hw]; norm_num)
  have g2 := hget 320 (by decide)
  have g3 := hget 384 (by decide)
  have g4 := hget 480 (by decide)
  rw [e2] at i2
  rw [e3] at i3
  rw [e4] at i4
  have v2 : p2 = Real.sin (8 * Real.arctan 1 * ((320 : Nat) : ℝ) / (WAVETABLESIZE : ℝ)) :=
    Option.some.inj (i2.trans g2)
  have v3 : p3 = Real.sin (8 * Real.arctan 1 * ((384 : Nat) : ℝ) / (WAVETABLESIZE : ℝ)) :=
    Option.some.inj (i3.trans g3)
  have v4 : p4 = Real.sin (8 * Real.arctan 1 * ((480 : Nat) : ℝ) / (WAVETABLESIZE : ℝ)) :=
    Option.some.inj (i4.trans g4)
  have q2 : 0 < p2 := by
    rw [v2]
    exact sine_entry_pos 320 (by decide) (by decide)
  have q3 : 0 < p3 := by
    rw [v3]
    exact sine_entry_pos 384 (by decide) (by decide)
  have q4 : 0 < p4 := by
    rw [v4]
    exact sine_entry_pos 480 (by decide) (by decide)
  have hperf := houscil_perform_single _ _ _ _ (perform_sample_of_mix _ _ _ _ hstep hmix)
  refine ⟨by rw [hx], _, _, p1, hperf, rfl, e1, ?_⟩
  · show p1 / 2 < p1 / 2 + (1 : ℝ) / 100 * (p2 / 4 + p3 / 6 + p4 / 8)
    have : 0 < (1 : ℝ) / 100 * (p2 / 4 + p3 / 6 + p4 / 8) := by positivity
    linarith

theorem perform_sample_frame (x x1 : t_houscil K) (fr o : K)
    (h : perform_sample x fr = some (x1, o)) :
    x1.wavetable = x.wavetable ∧ x1.samplerate = x.samplerate ∧ x1.harm_amt = x.harm_amt ∧
      x1.x_f = x.x_f := by
  unfold perform_sample at h
  dsimp only at h
  cases hm : houscil_mix (phase_step x fr) with
  | none =>
    rw [hm] at h
    cases h
  | some v =>
    rw [hm] at h
    have h2 : (phase_step x fr, v) = (x1, o) := Option.some.inj h
    have h3 : phase_step x fr = x1 := congrArg Prod.fst h2
    rw [← h3, phase_step_eq]
    exact ⟨rfl, rfl, rfl, rfl⟩

theorem houscil_perform_frame_of_some (freq : List K) : ∀ (x x1 : t_houscil K) (out : List K),
    houscil_perform x freq = some (x1, out) →
    x1.wavetable = x.wavetable ∧ x1.samplerate = x.samplerate ∧ x1.harm_amt = x.harm_amt ∧
      x1.x_f = x.x_f := by
  induction freq with
  | nil =>
    intro x x1 out h
    have h2 : (x, ([] : List K)) = (x1, out) := Option.some.inj h
    have h3 : x = x1 := congrArg Prod.fst h2
    rw [h3]
    exact ⟨rfl, rfl, rfl, rfl⟩
  | cons fr rest ih =>
    intro x x1 out h
    rw [houscil_perform] at h
    cases hs : perform_sample x fr with
    | none =>
      rw [hs] at h
      cases h
    | some r =>
      obtain ⟨xa, o⟩ := r
      rw [hs] at h
      cases hr : houscil_perform xa rest with
      | none =>
        simp [hr] at h
      | some r2 =>
        obtain ⟨xb, os⟩ := r2
        simp [hr] at h
        obtain ⟨a1, a2, a3, a4⟩ := perform_sample_frame x xa fr o hs
        obtain ⟨b1, b2, b3, b4⟩ := ih xa xb os hr
        rw [← h.1]
        exact ⟨b1.trans a1, b2.trans a2, b3.trans a3, b4.trans a4⟩

/-- C11: `houscil_perform` changes only the phase (and the output vector): whenever it
returns, the table contents and length, `samplerate` and `harm_amt` (and `x_f`) of the
object are those it had on entry; and it does return for every object whose table has
`WAVETABLESIZE` entries and every frequency vector. -/
theorem houscil_perform_frame (x : t_houscil K) (freq : List K) :
    (∀ (x1 : t_houscil K) (out : List K), houscil_perform x freq = some (x1, out) →
      x1.wavetable = x.wavetable ∧ x1.wavetable.length = x.wavetable.length ∧
      x1.samplerate = x.samplerate ∧ x1.harm_amt = x.harm_amt ∧ x1.x_f = x.x_f) ∧
    (x.wavetable.length = WAVETABLESIZE →
      ∃ x1 out, houscil_perform x freq = some (x1, out) ∧
        x1.wavetable = x.wavetable ∧ x1.wavetable.length = x.wavetable.length ∧
        x1.samplerate = x.samplerate ∧ x1.harm_amt = x.harm_amt ∧ x1.x_f = x.x_f) := by
  constructor
  · intro x1 out h
    obtain ⟨a1, a2, a3, a4⟩ := houscil_perform_frame_of_some freq x x1 out h
    exact ⟨a1, by rw [a1], a2, a3, a4⟩
  · intro hlen
    obtain ⟨out, hrun, -, -⟩ := houscil_perform_spec freq x hlen
    exact ⟨_, out, hrun, rfl, rfl, rfl, rfl, rfl⟩

/-- Instance of C11 over the rationals: three samples leave the table, the sample rate
and the amount of the object built with amount 50 at 48 kHz untouched. -/
theorem houscil_perform_frame_witness :
    ∃ x1 out, houscil_perform (houscil_dsp (houscil_new (fun v => v) (fun v => v) (50 : ℚ)) 48000)
        [440, -880, 0] = some (x1, out) ∧
      x1.wavetable = (houscil_new (fun v => v) (fun v => v) (50 : ℚ)).wavetable ∧
      x1.samplerate = 48000 ∧ x1.harm_amt = 50 :=
  match (houscil_perform_frame (houscil_dsp (houscil_new (fun v => v) (fun v => v) (50 : ℚ))
      48000) [440, -880, 0]).2 (houscil_new_wavetable (fun v => v) (fun v => v) (50 : ℚ)).1 with
  | ⟨x1, out, hrun, h1, _, h2, h3, _⟩ => ⟨x1, out, hrun, h1, h2, h3⟩

/-- C12: `houscil_float` is idempotent and the last write wins: applying it twice with
the same value gives the state of one application, and applying it with `v` after `u`
gives the state of applying it with `v` alone. -/
theorem houscil_float_idempotent (s : t_houscil K) (u v : K) :
    houscil_float (houscil_float s v) v = houscil_float s v ∧
    houscil_float (houscil_float s u) v = houscil_float s v := by
  constructor
  · unfold houscil_float
    split_ifs <;> rfl
  · unfold houscil_float
    split_ifs <;> rfl

theorem tmod_table_bounds (k : Int) (hk : 0 ≤ k) :
    0 ≤ Int.tmod k (WAVETABLESIZE : Int) ∧ Int.tmod k (WAVETABLESIZE : Int) < 1024 := by
  have hm : Int.tmod k (WAVETABLESIZE : Int) = k % 1024 := by
    rw [Int.tmod_eq_emod hk (by decide)]
    rfl
  rw [hm]
  exact ⟨Int.emod_nonneg k (by decide), Int.emod_lt_of_pos k (by decide)⟩

theorem ratio_bounds {r : K} (hr : r = 1 ∨ r = 5 / 4 ∨ r = 3 / 2 ∨ r = 15 / 8) :
    0 ≤ r ∧ r ≤ 2 := by
  rcases hr with h | h | h | h <;> rw [h] <;> constructor <;> norm_num

/-- C13: for every phase in `[0, 60)` and each ratio among 1, 5/4, 3/2 and 15/8, the
scaled index `s = phase * 1024 * ratio` of `lin_interpolate` is non-negative and below
`2^31`, its conversion to `int` is defined and equals the floor, the fraction
`s - x_1` lies in `[0, 1)`, and both subscripts `x_1 % 1024` and `(x_1 + 1) % 1024`
(truncating remainder, the sum without overflow) lie in `[0, 1024)`; with a table of
`WAVETABLESIZE` entries both reads succeed and `lin_interpolate` returns. -/
theorem lin_interpolate_index_safe (x : t_houscil K) (r s : K)
    (hp0 : 0 ≤ x.phase) (hp1 : x.phase < 60)
    (hr : r = 1 ∨ r = 5 / 4 ∨ r = 3 / 2 ∨ r = 15 / 8)
    (hs : s = x.phase * (WAVETABLESIZE : K) * r) :
    0 ≤ s ∧ s < 2147483648 ∧
    float_to_int s = some (Int.floor s) ∧
    0 ≤ s - (Int.floor s : K) ∧ s - (Int.floor s : K) < 1 ∧
    0 ≤ Int.tmod (Int.floor s) (WAVETABLESIZE : Int) ∧
    Int.tmod (Int.floor s) (WAVETABLESIZE : Int) < 1024 ∧
    int_add (Int.floor s) 1 = some (Int.floor s + 1) ∧
    0 ≤ Int.tmod (Int.floor s + 1) (WAVETABLESIZE : Int) ∧
    Int.tmod (Int.floor s + 1) (WAVETABLESIZE : Int) < 1024 ∧
    (x.wavetable.length = WAVETABLESIZE →
      ∃ y1 y2, table_read x.wavetable (Int.tmod (Int.floor s) (WAVETABLESIZE : Int)) = some y1 ∧
        table_read x.wavetable (Int.tmod (Int.floor s + 1) (WAVETABLESIZE : Int)) = some y2 ∧
        lin_interpolate x r = some ((y2 - y1) * (s - (Int.floor s : K)) + y1)) := by
  obtain ⟨hr0, hr2⟩ := ratio_bounds hr
  obtain ⟨h0, h1⟩ := scaled_index_bounds hp0 hp1 hr0 hr2
  rw [← hs] at h0 h1
  have hlo : (0 : Int) ≤ Int.floor s := Int.floor_nonneg.mpr h0
  have hhi : Int.floor s < 2147483646 := by
    rw [Int.floor_lt]
    exact_mod_cast h1
  have b1 := tmod_table_bounds (Int.floor s) hlo
  have b2 := tmod_table_bounds (Int.floor s + 1) (by omega)
  have hadd : int_add (Int.floor s) 1 = some (Int.floor s + 1) := by
    unfold int_add
    rw [if_pos]
    unfold INT_MIN INT_MAX
    constructor <;> omega
  refine ⟨h0, by linarith, float_to_int_of_nonneg h0 (by linarith),
    sub_nonneg.mpr (Int.floor_le s), ?_, b1.1, b1.2, hadd, b2.1, b2.2, ?_⟩
  · have := Int.lt_floor_add_one s
    linarith
  · intro hlen
    obtain ⟨y1, -, hy1⟩ := table_read_tmod x.wavetable hlen (Int.floor s) hlo
    obtain ⟨y2, -, hy2⟩ := table_read_tmod x.wavetable hlen (Int.floor s + 1) (by omega)
    refine ⟨y1, y2, hy1, hy2, ?_⟩
    unfold lin_interpolate
    rw [← hs, float_to_int_of_nonneg h0 (by linarith)]
    simp only [Option.bind_eq_bind, Option.some_bind, hy1, hadd, hy2]
    rfl

/-- Instance of C13 over the rationals: phase 599/10 and ratio 15/8, the largest ratio
near the top of the phase range (scaled index 115008). -/
theorem lin_interpolate_index_safe_witness :
    float_to_int ((599 / 10 : ℚ) * (WAVETABLESIZE : ℚ) * (15 / 8))
      = some (Int.floor ((599 / 10 : ℚ) * (WAVETABLESIZE : ℚ) * (15 / 8))) ∧
    0 ≤ Int.tmod (Int.floor ((599 / 10 : ℚ) * (WAVETABLESIZE : ℚ) * (15 / 8)) + 1)
      (WAVETABLESIZE : Int) ∧
    Int.tmod (Int.floor ((599 / 10 : ℚ) * (WAVETABLESIZE : ℚ) * (15 / 8)) + 1)
      (WAVETABLESIZE : Int) < 1024 :=
  match lin_interpolate_index_safe (⟨0, [], 599 / 10, 48000, 50⟩ : t_houscil ℚ) (15 / 8)
      ((599 / 10 : ℚ) * (WAVETABLESIZE : ℚ) * (15 / 8))
      (by show (0 : ℚ) ≤ 599 / 10; norm_num) (by show (599 / 10 : ℚ) < 60; norm_num)
      (Or.inr (Or.inr (Or.inr rfl))) rfl with
  | ⟨_, _, h3, _, _, _, _, _, h9, h10, _⟩ => ⟨h3, h9, h10⟩

theorem quad_interpolate_small (x : t_houscil K) (hp0 : 0 ≤ x.phase)
    (hp1 : x.phase * (WAVETABLESIZE : K) < 1) :
    float_to_int (x.phase * (WAVETABLESIZE : K)) = some 0 ∧ quad_interpolate x = none := by
  have hw : (0 : K) ≤ ((WAVETABLESIZE : Nat) : K) := Nat.cast_nonneg _
  have h0 : 0 ≤ x.phase * (WAVETABLESIZE : K) := mul_nonneg hp0 hw
  have hf : Int.floor (x.phase * (WAVETABLESIZE : K)) = 0 := by
    rw [Int.floor_eq_iff]
    constructor
    · simpa using h0
    · simpa using hp1
  have hfi : float_to_int (x.phase * (WAVETABLESIZE : K)) = some 0 := by
    rw [float_to_int_of_nonneg h0 (by linarith), hf]
  have hsub : int_sub 0 1 = some (-1) := by decide
  have hread : table_read x.wavetable (Int.tmod (-1) (WAVETABLESIZE : Int)) = none := by
    have hm : Int.tmod (-1) (WAVETABLESIZE : Int) = -1 := by decide
    rw [hm]
    unfold table_read
    rw [if_neg (by decide)]
  refine ⟨hfi, ?_⟩
  unfold quad_interpolate
  simp only [hfi, hsub, hread, Option.bind_eq_bind, Option.some_bind, Option.none_bind]

/-- C14, the code at phase 0 (the object as `houscil_new` builds it): `truncphase` is 0,
the first subscript `(truncphase - 1) % 1024` is -1 under the truncating remainder, the
read `wavetable[-1]` lies outside the table and `quad_interpolate` has no defined
result. -/
theorem quad_interpolate_negative_subscript :
    (houscil_new (fun v => v) (fun v => v) (50 : ℚ)).phase = 0 ∧
    float_to_int ((houscil_new (fun v => v) (fun v => v) (50 : ℚ)).phase * (WAVETABLESIZE : ℚ))
      = some 0 ∧
    int_sub 0 1 = some (-1) ∧
    Int.tmod (-1) (WAVETABLESIZE : Int) = -1 ∧
    table_read (houscil_new (fun v => v) (fun v => v) (50 : ℚ)).wavetable (-1) = none ∧
    quad_interpolate (houscil_new (fun v => v) (fun v => v) (50 : ℚ)) = none := by
  have h := quad_interpolate_small (houscil_new (fun v => v) (fun v => v) (50 : ℚ))
    (le_refl (0 : ℚ)) (by show (0 : ℚ) * _ < 1; norm_num)
  refine ⟨rfl, h.1, by decide, by decide, ?_, h.2⟩
  unfold table_read
  rw [if_neg (by decide)]

/-- Outside the first table step the cubic routine is safe: for a phase with
`1 ≤ phase * 1024` and `phase < 60` and a table of `WAVETABLESIZE` entries, all four
subscripts lie in `[0, 1024)` and `quad_interpolate` returns. -/
theorem quad_interpolate_some (x : t_houscil K) (hlen : x.wavetable.length = WAVETABLESIZE)
    (hp0 : 1 ≤ x.phase * (WAVETABLESIZE : K)) (hp1 : x.phase < 60) :
    0 ≤ Int.tmod (Int.floor (x.phase * (WAVETABLESIZE : K)) - 1) (WAVETABLESIZE : Int) ∧
    Int.tmod (Int.floor (x.phase * (WAVETABLESIZE : K)) - 1) (WAVETABLESIZE : Int) < 1024 ∧
    ∃ v, quad_interpolate x = some v := by
  have hw : ((WAVETABLESIZE : Nat) : K) = 1024 := by
    unfold WAVETABLESIZE
    norm_num
  have h0 : 0 ≤ x.phase * (WAVETABLESIZE : K) := by linarith
  have h1 : x.phase * (WAVETABLESIZE : K) < 61440 := by
    rw [hw]
    linarith
  have hlo : (1 : Int) ≤ Int.floor (x.phase * (WAVETABLESIZE : K)) := by
    rw [Int.le_floor]
    exact_mod_cast hp0
  have hhi : Int.floor (x.phase * (WAVETABLESIZE : K)) < 61440 := by
    rw [Int.floor_lt]
    exact_mod_cast h1
  have hfi := float_to_int_of_nonneg h0 (by linarith : x.phase * (WAVETABLESIZE : K) < 2147483647)
  have hsub : int_sub (Int.floor (x.phase * (WAVETABLESIZE : K))) 1
      = some (Int.floor (x.phase * (WAVETABLESIZE : K)) - 1) := by
    unfold int_sub
    rw [if_pos]
    unfold INT_MIN INT_MAX
    constructor <;> omega
  have hadd : ∀ d : Int, 0 ≤ d → d ≤ 2 →
      int_add (Int.floor (x.phase * (WAVETABLESIZE : K))) d
        = some (Int.floor (x.phase * (WAVETABLESIZE : K)) + d) := by
    intro d hd0 hd2
    unfold int_add
    rw [if_pos]
    unfold INT_MIN INT_MAX
    constructor <;> omega
  obtain ⟨ym, -, hym⟩ := table_read_tmod x.wavetable hlen
    (Int.floor (x.phase * (WAVETABLESIZE : K)) - 1) (by omega)
  obtain ⟨y0, -, hy0⟩ := table_read_tmod x.wavetable hlen
    (Int.floor (x.phase * (WAVETABLESIZE : K)) + 0) (by omega)
  obtain ⟨y1, -, hy1⟩ := table_read_tmod x.wavetable hlen
    (Int.floor (x.phase * (WAVETABLESIZE : K)) + 1) (by omega)
  obtain ⟨y2, -, hy2⟩ := table_read_tmod x.wavetable hlen
    (Int.floor (x.phase * (WAVETABLESIZE : K)) + 2) (by omega)
  have b := tmod_table_bounds (Int.floor (x.phase * (WAVETABLESIZE : K)) - 1) (by omega)
  refine ⟨b.1, b.2, ?_⟩
  unfold quad_interpolate
  simp only [hfi, hsub, hym, hadd 0 (by decide) (by decide), hy0,
    hadd 1 (by decide) (by decide), hy1, hadd 2 (by decide) (by decide), hy2,
    Option.bind_eq_bind, Option.some_bind]
  exact ⟨_, rfl⟩

theorem houscil_perform_append_eq (a b : List K) : ∀ x : t_houscil K,
    houscil_perform x (a ++ b)
      = (houscil_perform x a).bind (fun r =>
          (houscil_perform r.1 b).map (fun r2 => (r2.1, r.2 ++ r2.2))) := by
  induction a with
  | nil =>
    intro x
    cases hb : houscil_perform x b with
    | none => simp [houscil_perform, hb]
    | some r2 => simp [houscil_perform, hb]
  | cons fr rest ih =>
    intro x
    rw [List.cons_append, houscil_perform, houscil_perform]
    cases hs : perform_sample x fr with
    | none => simp
    | some r =>
      obtain ⟨xa, o⟩ := r
      simp only [Option.bind_eq_bind, Option.some_bind]
      rw [ih xa]
      cases ha : houscil_perform xa rest with
      | none => simp
      | some ra =>
        obtain ⟨xb, os⟩ := ra
        cases hb : houscil_perform xb b with
        | none => simp [hb]
        | some rb => simp [hb]

/-- C15: processing composes: `houscil_perform` on `a ++ b` is `houscil_perform` on `a`
followed, from the object it leaves, by `houscil_perform` on `b`, with the two outputs
concatenated (same final object, same samples); with a table of `WAVETABLESIZE` entries
all three calls return. -/
theorem houscil_perform_append (x : t_houscil K) (a b : List K) :
    houscil_perform x (a ++ b)
      = (houscil_perform x a).bind (fun r =>
          (houscil_perform r.1 b).map (fun r2 => (r2.1, r.2 ++ r2.2))) ∧
    (x.wavetable.length = WAVETABLESIZE →
      ∃ x1 o1 x2 o2, houscil_perform x a = some (x1, o1) ∧
        houscil_perform x1 b = some (x2, o2) ∧
        houscil_perform x (a ++ b) = some (x2, o1 ++ o2)) := by
  refine ⟨houscil_perform_append_eq a b x, ?_⟩
  intro hlen
  obtain ⟨o1, h1, -, -⟩ := houscil_perform_spec a x hlen
  obtain ⟨o2, h2, -, -⟩ := houscil_perform_spec b
    { x with phase := phase_at x a a.length } hlen
  refine ⟨_, o1, _, o2, h1, h2, ?_⟩
  rw [houscil_perform_append_eq a b x, h1]
  simp only [Option.bind_eq_bind, Option.some_bind, h2, Option.map_some']

/-- Instance of C15 over the rationals: a vector of three samples then one of two. -/
theorem houscil_perform_append_witness :
    ∃ x1 o1 x2 o2,
      houscil_perform (houscil_dsp (houscil_new (fun v => v) (fun v => v) (50 : ℚ)) 48000)
        [440, 880, -220] = some (x1, o1) ∧
      houscil_perform x1 [0, 96000000] = some (x2, o2) ∧
      houscil_perform (houscil_dsp (houscil_new (fun v => v) (fun v => v) (50 : ℚ)) 48000)
        ([440, 880, -220] ++ [0, 96000000]) = some (x2, o1 ++ o2) :=
  (houscil_perform_append (houscil_dsp (houscil_new (fun v => v) (fun v => v) (50 : ℚ)) 48000)
    [440, 880, -220] [0, 96000000]).2
    (houscil_new_wavetable (fun v => v) (fun v => v) (50 : ℚ)).1

theorem wrap_down_turns_of_lt {p : K} (h : p < 60) : wrap_down_turns p = 0 := by
  rw [wrap_down_turns]
  simp [not_le.mpr h]

theorem wrap_down_turns_step {p : K} (h : 60 ≤ p) :
    wrap_down_turns p = wrap_down_turns (p - 60) + 1 := by
  rw [wrap_down_turns]
  simp [h]

theorem wrap_up_turns_of_nonneg {p : K} (h : 0 ≤ p) : wrap_up_turns p = 0 := by
  rw [wrap_up_turns]
  simp [not_lt.mpr h]

theorem wrap_up_turns_step {p : K} (h : p < 0) :
    wrap_up_turns p = wrap_up_turns (p + 60) + 1 := by
  rw [wrap_up_turns]
  simp [h]

theorem neg_of_floor_div_neg {v : K} (h : Int.floor (v / 60) < 0) : v < 0 := by
  have h1 := Int.lt_floor_add_one (v / 60)
  rw [div_lt_iff₀ (by norm_num : (0 : K) < 60)] at h1
  have h2 : ((Int.floor (v / 60) : Int) : K) + 1 ≤ 0 := by
    exact_mod_cast h
  nlinarith

theorem wrap_down_turns_nat (n : Nat) : ∀ p : K, Int.floor (p / 60) = (n : Int) →
    wrap_down_turns p = n := by
  induction n with
  | zero =>
    intro p hp
    have h1 := Int.lt_floor_add_one (p / 60)
    rw [hp, div_lt_iff₀ (by norm_num : (0 : K) < 60)] at h1
    have h60 : p < 60 := by simpa using h1
    exact wrap_down_turns_of_lt h60
  | succ n ih =>
    intro p hp
    have h1 := Int.floor_le (p / 60)
    rw [hp, le_div_iff₀ (by norm_num : (0 : K) < 60)] at h1
    have h60 : 60 ≤ p := by
      push_cast at h1
      have : (0 : K) ≤ (n : K) := Nat.cast_nonneg n
      linarith
    have hf : Int.floor ((p - 60) / 60) = (n : Int) := by
      rw [sub_div, div_self (by norm_num : (60 : K) ≠ 0), Int.floor_sub_one, hp]
      push_cast
      ring
    rw [wrap_down_turns_step h60, ih _ hf]

theorem wrap_up_turns_nat (n : Nat) : ∀ p : K, Int.floor (p / 60) = -(n : Int) →
    wrap_up_turns p = n := by
  induction n with
  | zero =>
    intro p hp
    have h1 := Int.floor_le (p / 60)
    rw [hp, le_div_iff₀ (by norm_num : (0 : K) < 60)] at h1
    have h0 : 0 ≤ p := by simpa using h1
    exact wrap_up_turns_of_nonneg h0
  | succ n ih =>
    intro p hp
    have h0 : p < 0 := neg_of_floor_div_neg (by rw [hp]; omega)
    have hf : Int.floor ((p + 60) / 60) = -(n : Int) := by
      rw [add_div, div_self (by norm_num : (60 : K) ≠ 0), Int.floor_add_one, hp]
      push_cast
      ring
    rw [wrap_up_turns_step h0, ih _ hf]

theorem wrap_turns (v : K) :
    wrap_down_turns v = (Int.floor (v / 60)).toNat ∧
    wrap_up_turns (wrap_down v) = (-Int.floor (v / 60)).toNat := by
  rcases le_or_lt 0 (Int.floor (v / 60)) with h | h
  · obtain ⟨n, hn⟩ := Int.eq_ofNat_of_zero_le h
    constructor
    · rw [wrap_down_turns_nat n v hn, hn]
      simp
    · rw [wrap_down_nat n v hn, wrap_up_turns_of_nonneg (wrap60_nonneg v)]
      omega
  · have hv : v < 0 := neg_of_floor_div_neg h
    obtain ⟨n, hn⟩ := Int.exists_eq_neg_ofNat (le_of_lt h)
    constructor
    · rw [wrap_down_turns_of_lt (by linarith)]
      omega
    · rw [wrap_down_of_lt (by linarith), wrap_up_turns_nat n v hn, hn]
      simp

/-- C16: for every starting phase `p`, every frequency `f` and every sample rate
`sr > 0`, the two wrap loops of a sample step stop, the first after `⌊v / 60⌋` turns and
the second after `-⌊v / 60⌋` turns (none when that number is negative) for
`v = p + f / sr`, and the phase they leave is `v - 60 * ⌊v / 60⌋`, the remainder of `v`
modulo 60 in `[0, 60)`; this is the phase `houscil_perform` stores for the sample. -/
theorem wrap_loops_terminate (x : t_houscil K) (f v : K) (_hsr : 0 < x.samplerate)
    (hv : v = x.phase + f / x.samplerate) :
    wrap_down_turns v = (Int.floor (v / 60)).toNat ∧
    wrap_up_turns (wrap_down v) = (-Int.floor (v / 60)).toNat ∧
    wrap_up (wrap_down v) = v - 60 * (Int.floor (v / 60) : K) ∧
    0 ≤ wrap_up (wrap_down v) ∧ wrap_up (wrap_down v) < 60 ∧
    (phase_step x f).phase = v - 60 * (Int.floor (v / 60) : K) := by
  have hw : wrap_up (wrap_down v) = v - 60 * (Int.floor (v / 60) : K) := wrap_up_wrap_down v
  refine ⟨(wrap_turns v).1, (wrap_turns v).2, hw, ?_, ?_, ?_⟩
  · rw [wrap_up_wrap_down]
    exact wrap60_nonneg v
  · rw [wrap_up_wrap_down]
    exact wrap60_lt v
  · rw [phase_step_phase, hv]
    rfl

/-- Instance of C16 over the rationals: phase 59 and 96 MHz at 48 kHz give `v = 2059`;
the first loop turns 34 times, the second never, and the phase left is 19. -/
theorem wrap_loops_terminate_witness :
    wrap_down_turns (2059 : ℚ) = 34 ∧ wrap_up_turns (wrap_down (2059 : ℚ)) = 0 ∧
    wrap_up (wrap_down (2059 : ℚ)) = 19 :=
  match wrap_loops_terminate (⟨0, [], 59, 48000, 50⟩ : t_houscil ℚ) 96000000 2059
      (by show (0 : ℚ) < 48000; norm_num)
      (by show (2059 : ℚ) = 59 + 96000000 / 48000; norm_num) with
  | ⟨h1, h2, h3, _, _, _⟩ =>
    have hf : Int.floor ((2059 : ℚ) / 60) = 34 := by
      rw [Int.floor_eq_iff]
      constructor <;> norm_num
    ⟨by rw [h1, hf]; rfl, by rw [h2, hf]; rfl, by rw [h3, hf]; norm_num⟩

end Proofs

end Houscil
